import Mathlib

/-!
Verification of the pattern-driven pipeline executor of the rew/mmvv repository.

The development shallowly embeds the Rust sources:

* src/src/commands/x.rs — the x subcommand: simple-path evaluation
  (eval_simple_pattern), the general-path output loop and shutdown
  (eval_pattern), the stdin forwarder thread closure, the command builder
  (CommandBuilder::build_pipeline) and the Eval wrappers.
* src/src/spawn.rs and src/src/process.rs — the Spawned wrappers
  (write_all, wait, try_wait, exit_error).
* src/src/pipeline.rs — the pipeline Builder.
* src/src/bin/rew/pattern/parser.rs — the pattern parser of the rew binary.

Byte strings are lists of naturals.  Child processes and OS pipes are
modelled by the data they carry: a child stdout reader is the list of
records it will yield before end-of-stream, a child stdin is the number of
chunks it accepts before reporting a broken pipe.  Parts of the repository
that the claims depend on but that are not present under src/ (the
crate::pattern data model and its simplification, the crate::io readers and
writer, the cat built-in, the rew lexer) are modelled from the spec and
marked as such in their doc comments.
-/

namespace Mmvv

/-- A byte, modelled as a natural number. -/
abbrev Byte := Nat

/-- A byte string: the contents of a record, constant or chunk. -/
abbrev Bytes := List Byte

/-- EvalItem from src/src/commands/x.rs (lines 329-332): one producer of the
general-path output loop.  A Constant carries its bytes; a Reader stands for
the LineReader over a child pipeline stdout and is modelled by the list of
records that stdout will yield before end-of-stream. -/
inductive EvalItem where
  | constant (value : Bytes)
  | reader (records : List Bytes)
  deriving Repr, DecidableEq

/-- One pass of the inner for-loop of the output loop in eval_pattern
(src/src/commands/x.rs lines 277-288): walk the items in order, appending
each Constant's bytes and one record read from each Reader to the output
buffer.  Reading end-of-stream from any Reader breaks the entire loop,
which is the none result; the buffer accumulated so far is discarded.
On success the result carries the assembled record and the items with
every Reader advanced past the record it produced. -/
def loopBody : List EvalItem → Bytes → Option (Bytes × List EvalItem)
  | [], buf => some (buf, [])
  | .constant value :: rest, buf =>
      (loopBody rest (buf ++ value)).map fun p => (p.1, .constant value :: p.2)
  | .reader [] :: _, _ => none
  | .reader (line :: lines) :: rest, buf =>
      (loopBody rest (buf ++ line)).map fun p => (p.1, .reader lines :: p.2)

/-- The output loop of eval_pattern (src/src/commands/x.rs lines 276-291),
run for at most fuel iterations.  Each successful iteration writes the
assembled buffer as one output record and clears the buffer.  The boolean
reports whether the loop reached its break (end-of-stream on some Reader)
within the given fuel; the loop in the source has no other exit on the
success path, so a run whose flag stays false for every fuel is a run that
never terminates. -/
def evalLoop : Nat → List EvalItem → List Bytes × Bool
  | 0, _ => ([], false)
  | fuel + 1, items =>
    match loopBody items [] with
    | none => ([], true)
    | some (record, rest) =>
        let next := evalLoop fuel rest
        (record :: next.1, next.2)

/-- Minimum of a number and an optional number. -/
def minOpt (n : Nat) : Option Nat → Nat
  | none => n
  | some m => min n m

/-- The minimum number of records still available across all Readers of an
item list, or none when the list contains no Reader at all. -/
def minReaderLen : List EvalItem → Option Nat
  | [] => none
  | .constant _ :: rest => minReaderLen rest
  | .reader records :: rest => some (minOpt records.length (minReaderLen rest))

/-- The record the output loop assembles on its i-th iteration: the
concatenation, in item order, of every Constant's bytes and the i-th
record of every Reader's stream. -/
def recordAt : List EvalItem → Nat → Bytes
  | [], _ => []
  | .constant value :: rest, i => value ++ recordAt rest i
  | .reader records :: rest, i => records.getD i [] ++ recordAt rest i

/-- Every Reader advanced past one record; Constants are untouched. -/
def advanceItems : List EvalItem → List EvalItem
  | [] => []
  | .constant value :: rest => .constant value :: advanceItems rest
  | .reader records :: rest => .reader records.tail :: advanceItems rest

theorem loopBody_of_min_ne_zero (items : List EvalItem) (buf : Bytes)
    (h : minReaderLen items ≠ some 0) :
    loopBody items buf = some (buf ++ recordAt items 0, advanceItems items) := by
  induction items generalizing buf with
  | nil => simp [loopBody, recordAt, advanceItems]
  | cons item rest ih =>
    cases item with
    | constant value =>
      have hrest : minReaderLen rest ≠ some 0 := by
        simpa [minReaderLen] using h
      simp [loopBody, recordAt, advanceItems, ih _ hrest, List.append_assoc]
    | reader records =>
      cases records with
      | nil =>
        exfalso
        apply h
        simp only [minReaderLen, Option.some.injEq]
        cases hm : minReaderLen rest <;> simp [minOpt]
      | cons line lines =>
        have hrest : minReaderLen rest ≠ some 0 := by
          intro hz
          apply h
          simp [minReaderLen, hz, minOpt]
        simp [loopBody, recordAt, advanceItems, ih _ hrest, List.append_assoc]

theorem loopBody_of_min_zero (items : List EvalItem) (buf : Bytes)
    (h : minReaderLen items = some 0) :
    loopBody items buf = none := by
  induction items generalizing buf with
  | nil => simp [minReaderLen] at h
  | cons item rest ih =>
    cases item with
    | constant value =>
      have hrest : minReaderLen rest = some 0 := by
        simpa [minReaderLen] using h
      simp [loopBody, ih _ hrest]
    | reader records =>
      cases records with
      | nil => simp [loopBody]
      | cons line lines =>
        have hrest : minReaderLen rest = some 0 := by
          simp only [minReaderLen, Option.some.injEq] at h
          cases hm : minReaderLen rest with
          | none =>
            rw [hm] at h
            simp [minOpt] at h
          | some m =>
            rw [hm] at h
            simp only [minOpt, List.length_cons] at h
            have hm0 : m = 0 := by omega
            rw [hm0]
        simp [loopBody, ih _ hrest]

theorem minReaderLen_advance_none (items : List EvalItem)
    (h : minReaderLen items = none) :
    minReaderLen (advanceItems items) = none := by
  induction items with
  | nil => simp [advanceItems, minReaderLen]
  | cons item rest ih =>
    cases item with
    | constant value =>
      simp only [minReaderLen] at h
      simpa [advanceItems, minReaderLen] using ih h
    | reader records =>
      simp [minReaderLen] at h

theorem minReaderLen_advance (items : List EvalItem) (k : Nat)
    (h : minReaderLen items = some (k + 1)) :
    minReaderLen (advanceItems items) = some k := by
  induction items generalizing k with
  | nil => simp [minReaderLen] at h
  | cons item rest ih =>
    cases item with
    | constant value =>
      simp only [minReaderLen] at h
      simpa [advanceItems, minReaderLen] using ih k h
    | reader records =>
      simp only [minReaderLen, Option.some.injEq] at h
      cases hm : minReaderLen rest with
      | none =>
        rw [hm] at h
        simp only [minOpt] at h
        simp [advanceItems, minReaderLen, minReaderLen_advance_none rest hm, minOpt,
          List.length_tail, h]
      | some m =>
        rw [hm] at h
        simp only [minOpt] at h
        obtain ⟨m', rfl⟩ : ∃ m', m = m' + 1 := ⟨m - 1, by omega⟩
        simp only [advanceItems, minReaderLen, ih m' hm, minOpt, List.length_tail,
          Option.some.injEq]
        omega

theorem recordAt_advance (items : List EvalItem) (i : Nat) :
    recordAt (advanceItems items) i = recordAt items (i + 1) := by
  induction items with
  | nil => simp [advanceItems, recordAt]
  | cons item rest ih =>
    cases item with
    | constant value => simp [advanceItems, recordAt, ih]
    | reader records =>
      cases records with
      | nil => simp [advanceItems, recordAt, ih]
      | cons line lines => simp [advanceItems, recordAt, ih]

/-- Closed form of the general-path output loop: with minimum Reader stream
length k, the loop emits the first min fuel k assembled records, in order,
and has reached its end-of-stream break exactly when the fuel exceeds k. -/
theorem evalLoop_closed (fuel : Nat) (items : List EvalItem) (k : Nat)
    (hk : minReaderLen items = some k) :
    evalLoop fuel items =
      ((List.range (min fuel k)).map (recordAt items), decide (k < fuel)) := by
  induction fuel generalizing items k with
  | zero => simp [evalLoop]
  | succ fuel ih =>
    cases k with
    | zero =>
      simp [evalLoop, loopBody_of_min_zero items [] hk]
    | succ k' =>
      have hne : minReaderLen items ≠ some 0 := by simp [hk]
      have hadv := minReaderLen_advance items k' hk
      have hstep : evalLoop (fuel + 1) items =
          (recordAt items 0 :: (evalLoop fuel (advanceItems items)).1,
            (evalLoop fuel (advanceItems items)).2) := by
        rw [evalLoop, loopBody_of_min_ne_zero items [] hne]
        rfl
      have hfun : recordAt (advanceItems items) = fun i => recordAt items (i + 1) :=
        funext fun i => recordAt_advance items i
      rw [hstep, ih (advanceItems items) k' hadv, hfun, Nat.succ_min_succ,
        List.range_succ_eq_map]
      simp [List.map_map, Function.comp, decide_eq_decide, Nat.succ_lt_succ_iff]

/-- C1: in the general path, for every iteration of the output loop the
emitted output record is the concatenation, in item order, of each
Constant's bytes and exactly one record read from each Expression's stdout
reader (recordAt lists the readers' i-th records in expression order within
record i, and records appear in record order over time), and the loop
terminates (break reached, flag true) as soon as any reader returns
end-of-stream: exactly minReaderLen records are emitted.  The hypothesis
minReaderLen items = some k holds for every parsed general pattern, since
eval_pattern (src/src/commands/x.rs lines 221-242) pushes one Reader per
Expression and a pattern that does not simplify has at least one
Expression. -/
theorem general_loop_emits_in_order (items : List EvalItem) (k fuel : Nat)
    (hk : minReaderLen items = some k) (hfuel : k < fuel) :
    evalLoop fuel items = ((List.range k).map (recordAt items), true) := by
  rw [evalLoop_closed fuel items k hk, Nat.min_eq_right (Nat.le_of_lt hfuel)]
  simp [hfuel]

theorem general_loop_emits_in_order_witness :
    minReaderLen
        [EvalItem.constant [72], EvalItem.reader [[97], [98]],
          EvalItem.reader [[120], [121], [122]]] = some 2 ∧
      evalLoop 3
          [EvalItem.constant [72], EvalItem.reader [[97], [98]],
            EvalItem.reader [[120], [121], [122]]] =
        ((List.range 2).map
            (recordAt
              [EvalItem.constant [72], EvalItem.reader [[97], [98]],
                EvalItem.reader [[120], [121], [122]]]),
          true) :=
  ⟨by decide, general_loop_emits_in_order _ 2 3 (by decide) (by decide)⟩

/-- C10: every record written by the general-path output loop is complete.
When some reader reaches end-of-stream while a record is only partially
assembled, loopBody returns none and evalLoop emits nothing for that
iteration: every emitted record is a fully assembled recordAt, and no more
than minReaderLen records are ever emitted, for any amount of fuel. -/
theorem general_loop_no_incomplete_record (items : List EvalItem) (k fuel : Nat)
    (hk : minReaderLen items = some k) :
    (∀ r ∈ (evalLoop fuel items).1, ∃ i, i < k ∧ r = recordAt items i) ∧
      (evalLoop fuel items).1.length ≤ k := by
  rw [evalLoop_closed fuel items k hk]
  constructor
  · intro r hr
    simp only [List.mem_map, List.mem_range] at hr
    obtain ⟨i, hi, rfl⟩ := hr
    exact ⟨i, Nat.lt_of_lt_of_le hi (Nat.min_le_right _ _), rfl⟩
  · simp [Nat.min_le_right]

theorem general_loop_no_incomplete_record_witness :
    minReaderLen [EvalItem.reader [[97], [98]], EvalItem.reader [[120]]] = some 1 ∧
      (∀ r ∈ (evalLoop 9 [EvalItem.reader [[97], [98]], EvalItem.reader [[120]]]).1,
          ∃ i, i < 1 ∧
            r = recordAt [EvalItem.reader [[97], [98]], EvalItem.reader [[120]]] i) ∧
        (evalLoop 9 [EvalItem.reader [[97], [98]], EvalItem.reader [[120]]]).1.length ≤ 1 :=
  ⟨by decide, general_loop_no_incomplete_record _ 1 9 (by decide)⟩

/-- Group from src/src/command.rs (lines 74-82): the command groups of the
built-in registry; Generators ignore stdin. -/
inductive Group where
  | general
  | transformers
  | mappers
  | paths
  | filters
  | generators
  deriving Repr, DecidableEq

/-- Modelled from the spec: the Command of the crate::pattern module, which
is not under src/ (spec section 3): a pipeline command with a name,
arguments and an external marker. -/
structure PCommand where
  name : String
  args : List String
  external : Bool
  deriving Repr, DecidableEq

/-- Modelled from the spec: ExpressionValue of the crate::pattern module,
which is not under src/ (spec section 3): an expression body is either a
verbatim shell command line or a pipeline of commands. -/
inductive ExpressionValue where
  | rawShell (command : String)
  | pipeline (commands : List PCommand)
  deriving Repr, DecidableEq

/-- Modelled from the spec: Expression of the crate::pattern module, which
is not under src/ (spec section 3).  The raw_value field only feeds
diagnostics and is omitted. -/
structure Expression where
  value : ExpressionValue
  no_stdin : Bool
  deriving Repr, DecidableEq

/-- Modelled from the spec: Item of the crate::pattern module, which is not
under src/ (spec section 3): a pattern is a sequence of constants and
expressions. -/
inductive Item where
  | constant (value : Bytes)
  | expression (expr : Expression)
  deriving Repr, DecidableEq

/-- Modelled from the spec: SimpleItem of the crate::pattern module, which
is not under src/ (spec section 3): constant bytes or an input echo. -/
inductive SimpleItem where
  | constant (value : Bytes)
  | expression
  deriving Repr, DecidableEq

/-- Does the item hold an expression? -/
def isExpressionItem : Item → Bool
  | .constant _ => false
  | .expression _ => true

/-- Is the expression a pure input echo: an empty Pipeline body with no
no-stdin marker (spec section 4.2, simplification). -/
def exprIsEcho (e : Expression) : Bool :=
  match e.value with
  | .pipeline [] => !e.no_stdin
  | _ => false

/-- The simple item corresponding to a pattern item whose expressions are
all pure echoes. -/
def toSimpleItem : Item → SimpleItem
  | .constant value => .constant value
  | .expression _ => .expression

/-- Modelled from the spec: Pattern::try_simplify of the crate::pattern
module, which is not under src/.  Spec section 4.2: a Pattern simplifies to
a SimplePattern iff every Expression has an empty Pipeline body (pure input
echo of stdin), no RawShell and no stdin-marker tricks; Constants carry
over and each such Expression becomes an input-echo item. -/
def try_simplify (p : List Item) : Option (List SimpleItem) :=
  if p.all fun it =>
      match it with
      | .constant _ => true
      | .expression e => exprIsEcho e
  then some (p.map toSimpleItem)
  else none

/-- The body of the while-loop of eval_simple_pattern
(src/src/commands/x.rs lines 202-207): write each Constant's bytes and, for
each Expression item, the input line's bytes, in item order, into the
current output record. -/
def writeSimpleItems : List SimpleItem → Bytes → Bytes
  | [], _ => []
  | .constant value :: rest, line => value ++ writeSimpleItems rest line
  | .expression :: rest, line => line ++ writeSimpleItems rest line

/-- eval_simple_pattern (src/src/commands/x.rs lines 197-212): for every
line read from stdin, write the items and then the record separator — one
output record per input record.  Input lines never contain the separator
(the LineReader strips it), so the written stream is exactly this record
list. -/
def eval_simple_pattern (sp : List SimpleItem) : List Bytes → List Bytes
  | [] => []
  | line :: rest => writeSimpleItems sp line :: eval_simple_pattern sp rest

/-- The number of child processes and of extra threads created by
eval_simple_pattern: its body (src/src/commands/x.rs lines 197-212)
contains no spawn call and no thread creation, so both counts are zero for
every pattern and every input. -/
def evalSimpleEffects (_sp : List SimpleItem) (_input : List Bytes) : Nat × Nat :=
  (0, 0)

theorem writeSimpleItems_eq (sp : List SimpleItem) (line : Bytes) :
    writeSimpleItems sp line =
      (sp.map fun it =>
        match it with
        | .constant value => value
        | .expression => line).flatten := by
  induction sp with
  | nil => simp [writeSimpleItems]
  | cons it rest ih => cases it <;> simp [writeSimpleItems, ih]

theorem eval_simple_pattern_eq_map (sp : List SimpleItem) (input : List Bytes) :
    eval_simple_pattern sp input = input.map (writeSimpleItems sp) := by
  induction input with
  | nil => rfl
  | cons line rest ih => simp [eval_simple_pattern, ih]

/-- C3: in the fast path over a SimplePattern, for every input record the
program writes exactly one output record equal to the concatenation, in
item order, of each Constant's bytes and the input record's bytes for each
input-echo item, and it spawns no child process and no extra thread. -/
theorem simple_path_correct (sp : List SimpleItem) (input : List Bytes) :
    eval_simple_pattern sp input =
      input.map (fun line =>
        (sp.map fun it =>
          match it with
          | .constant value => value
          | .expression => line).flatten) ∧
      evalSimpleEffects sp input = (0, 0) := by
  refine ⟨?_, rfl⟩
  rw [eval_simple_pattern_eq_map]
  exact List.map_congr_left fun line _ => writeSimpleItems_eq sp line

/-- The item list the general path builds from a pattern
(src/src/commands/x.rs lines 221-242): one Constant per Constant item and
one Reader per Expression item, in pattern order.  The records a spawned
expression's stdout yields are supplied by sem, the stream semantics of
that expression. -/
def buildEvalItems (p : List Item) (sem : Expression → List Bytes) : List EvalItem :=
  p.map fun it =>
    match it with
    | .constant value => EvalItem.constant value
    | .expression e => EvalItem.reader (sem e)

/-- Modelled from the spec: the stdout stream of an empty-pipeline
expression.  build_pipeline substitutes the cat built-in for an empty
command list (src/src/commands/x.rs lines 580-590); the cat command source
is not under src/ and the spec (sections 1, 4.2) describes the empty
expression as a pure echo of stdin, and the forwarder thread delivers every
parent stdin chunk to the child's stdin, so the expression's stdout reader
yields exactly the parent's input records. -/
def emptyPipelineStdout (input : List Bytes) : List Bytes := input

/-- The general-path evaluation of a pattern all of whose expressions are
pure input echoes: run the output loop of eval_pattern over the built items
with enough fuel to reach the end-of-stream break.  The result is none when
the items contain no Reader, in which case the loop never reaches its break
(evalLoop_no_reader below) and eval_pattern never terminates. -/
def generalRun (p : List Item) (input : List Bytes) : Option (List Bytes) :=
  match minReaderLen (buildEvalItems p fun _ => emptyPipelineStdout input) with
  | none => none
  | some k =>
      some ((evalLoop (k + 1) (buildEvalItems p fun _ => emptyPipelineStdout input)).1)

theorem buildEvalItems_nil (sem : Expression → List Bytes) :
    buildEvalItems [] sem = [] := rfl

theorem buildEvalItems_cons_const (value : Bytes) (rest : List Item)
    (sem : Expression → List Bytes) :
    buildEvalItems (Item.constant value :: rest) sem =
      EvalItem.constant value :: buildEvalItems rest sem := rfl

theorem buildEvalItems_cons_expr (e : Expression) (rest : List Item)
    (sem : Expression → List Bytes) :
    buildEvalItems (Item.expression e :: rest) sem =
      EvalItem.reader (sem e) :: buildEvalItems rest sem := rfl

theorem advance_no_reader (items : List EvalItem)
    (h : minReaderLen items = none) : advanceItems items = items := by
  induction items with
  | nil => rfl
  | cons item rest ih =>
    cases item with
    | constant value =>
      simp only [minReaderLen] at h
      simp [advanceItems, ih h]
    | reader records => simp [minReaderLen] at h

/-- An item list without any Reader never reaches the break of the output
loop: for every fuel the loop keeps re-emitting the constants and its break
flag stays false — eval_pattern would loop forever on such items. -/
theorem evalLoop_no_reader (fuel : Nat) (items : List EvalItem)
    (h : minReaderLen items = none) :
    evalLoop fuel items = (List.replicate fuel (recordAt items 0), false) := by
  induction fuel with
  | zero => simp [evalLoop]
  | succ fuel ih =>
    have hne : minReaderLen items ≠ some 0 := by simp [h]
    have hstep : evalLoop (fuel + 1) items =
        (recordAt items 0 :: (evalLoop fuel (advanceItems items)).1,
          (evalLoop fuel (advanceItems items)).2) := by
      rw [evalLoop, loopBody_of_min_ne_zero items [] hne]
      rfl
    rw [hstep, advance_no_reader items h, ih, List.replicate_succ]

theorem minReaderLen_build_none (p : List Item) (sem : Expression → List Bytes)
    (h : p.any isExpressionItem = false) :
    minReaderLen (buildEvalItems p sem) = none := by
  induction p with
  | nil => simp [buildEvalItems_nil, minReaderLen]
  | cons it rest ih =>
    cases it with
    | constant value =>
      simp only [List.any_cons, isExpressionItem, Bool.false_or] at h
      rw [buildEvalItems_cons_const]
      simp only [minReaderLen]
      exact ih h
    | expression e => simp [isExpressionItem] at h

theorem minReaderLen_build_const (p : List Item) (s : List Bytes)
    (hx : p.any isExpressionItem = true) :
    minReaderLen (buildEvalItems p fun _ => s) = some s.length := by
  induction p with
  | nil => simp at hx
  | cons it rest ih =>
    cases it with
    | constant value =>
      simp only [List.any_cons, isExpressionItem, Bool.false_or] at hx
      rw [buildEvalItems_cons_const]
      simp only [minReaderLen]
      exact ih hx
    | expression e =>
      rw [buildEvalItems_cons_expr]
      simp only [minReaderLen]
      cases hrest : rest.any isExpressionItem with
      | true => simp [ih hrest, minOpt]
      | false => simp [minReaderLen_build_none rest (fun _ => s) hrest, minOpt]

theorem recordAt_build_echo (p : List Item) (s : List Bytes) (i : Nat) :
    recordAt (buildEvalItems p fun _ => s) i =
      writeSimpleItems (p.map toSimpleItem) (s.getD i []) := by
  induction p with
  | nil => simp [buildEvalItems_nil, recordAt, writeSimpleItems]
  | cons it rest ih =>
    cases it with
    | constant value =>
      rw [buildEvalItems_cons_const, List.map_cons]
      simp only [recordAt, toSimpleItem, writeSimpleItems]
      rw [ih]
    | expression e =>
      rw [buildEvalItems_cons_expr, List.map_cons]
      simp only [recordAt, toSimpleItem, writeSimpleItems]
      rw [ih]

theorem map_getD_range (l : List Bytes) (f : Bytes → Bytes) :
    (List.range l.length).map (fun i => f (l.getD i [])) = l.map f := by
  induction l with
  | nil => simp
  | cons a t ih =>
    have hstep : (List.range (a :: t).length).map (fun i => f ((a :: t).getD i [])) =
        f a :: (List.range t.length).map (fun i => f (t.getD i [])) := by
      rw [List.length_cons, List.range_succ_eq_map, List.map_cons, List.map_map]
      simp [Function.comp]
    rw [hstep, ih, List.map_cons]

theorem try_simplify_eq (p : List Item) (sp : List SimpleItem)
    (hs : try_simplify p = some sp) :
    sp = p.map toSimpleItem ∧
      (p.all fun it =>
        match it with
        | .constant _ => true
        | .expression e => exprIsEcho e) = true := by
  unfold try_simplify at hs
  split at hs
  · rename_i hcond
    exact ⟨(Option.some.injEq _ _ ▸ hs).symm, hcond⟩
  · exact absurd hs (by simp)

/-- C2 counterexample: the claim fails on a pattern with no Expression.
The all-constant pattern consisting of the single constant byte 97
simplifies, and on the one-record input consisting of byte 120 the simple
path emits the single record 97; but the general path's item list contains
no Reader, so its output loop never reaches its break — with fuel 3 it has
already emitted three records of constants with the break flag still false,
and generalRun reports the divergence as none.  The two paths therefore do
not produce the same bytes. -/
theorem simplification_sound_counterexample :
    try_simplify [Item.constant [97]] = some [SimpleItem.constant [97]] ∧
      eval_simple_pattern [SimpleItem.constant [97]] [[120]] = [[97]] ∧
      generalRun [Item.constant [97]] [[120]] = none ∧
      evalLoop 3 (buildEvalItems [Item.constant [97]] fun _ =>
        emptyPipelineStdout [[120]]) = ([[97], [97], [97]], false) := by
  refine ⟨rfl, rfl, rfl, rfl⟩

/-- C2 (amended): if simplification of a pattern succeeds and the pattern
contains at least one Expression, then for every input the general-path
evaluation of the original pattern terminates and produces exactly the
bytes of the simple-path evaluation, and the simple path spawns no child
process.  (For a pattern with no Expression the two paths differ: the
general path never terminates — see the counterexample — though run()
always sends such patterns down the simple path.) -/
theorem simplification_sound_amended (p : List Item) (sp : List SimpleItem)
    (input : List Bytes) (hs : try_simplify p = some sp)
    (hx : p.any isExpressionItem = true) :
    generalRun p input = some (eval_simple_pattern sp input) ∧
      evalSimpleEffects sp input = (0, 0) := by
  obtain ⟨rfl, _⟩ := try_simplify_eq p sp hs
  refine ⟨?_, rfl⟩
  have hmin := minReaderLen_build_const p (emptyPipelineStdout input) hx
  simp only [generalRun, hmin]
  have hloop := general_loop_emits_in_order
    (buildEvalItems p fun _ => emptyPipelineStdout input)
    (emptyPipelineStdout input).length ((emptyPipelineStdout input).length + 1)
    hmin (Nat.lt_succ_self _)
  rw [hloop]
  have hrec : (List.range (emptyPipelineStdout input).length).map
      (recordAt (buildEvalItems p fun _ => emptyPipelineStdout input)) =
      input.map (writeSimpleItems (p.map toSimpleItem)) := by
    have h1 : (List.range (emptyPipelineStdout input).length).map
        (recordAt (buildEvalItems p fun _ => emptyPipelineStdout input)) =
        (List.range input.length).map
          (fun i => writeSimpleItems (p.map toSimpleItem) (input.getD i [])) := by
      apply List.map_congr_left
      intro i _
      exact recordAt_build_echo p input i
    rw [h1, map_getD_range]
  rw [hrec, eval_simple_pattern_eq_map]

theorem simplification_sound_amended_witness :
    try_simplify [Item.constant [97],
        Item.expression ⟨ExpressionValue.pipeline [], false⟩] =
      some [SimpleItem.constant [97], SimpleItem.expression] ∧
      [Item.constant [97],
        Item.expression ⟨ExpressionValue.pipeline [], false⟩].any isExpressionItem = true ∧
      generalRun [Item.constant [97],
          Item.expression ⟨ExpressionValue.pipeline [], false⟩] [[120], [121]] =
        some (eval_simple_pattern
          [SimpleItem.constant [97], SimpleItem.expression] [[120], [121]]) ∧
      evalSimpleEffects [SimpleItem.constant [97], SimpleItem.expression]
        [[120], [121]] = (0, 0) := by
  refine ⟨by decide, by decide, ?_⟩
  exact simplification_sound_amended _ _ _ (by decide) (by decide)

/-- One Consumer slot of the forwarder thread (src/src/commands/x.rs lines
218, 237-239 and 246-270).  The first component models the Option in the
stdins vector: some cap is a live child stdin whose pipe will accept cap
more chunks before the child closes it (a write then fails with a broken
pipe, src/src/commands/x.rs lines 444-450); none is a removed consumer.
The second component records the chunks successfully written to this
consumer, i.e. the bytes the child receives on its stdin. -/
abbrev Consumer := Option Nat × List Bytes

/-- Offering one chunk to one consumer slot (the body of the inner
for-loop, src/src/commands/x.rs lines 254-261): a removed slot is skipped;
a live consumer whose pipe no longer accepts input reports a broken pipe
and the slot is cleared with stdin.take(), while the loop goes on with the
other consumers; otherwise write_all succeeds and the chunk is written. -/
def consumerStep (chunk : Bytes) : Consumer → Consumer
  | (none, received) => (none, received)
  | (some 0, received) => (none, received)
  | (some (cap + 1), received) => (some cap, received ++ [chunk])

/-- The forwarder loop (src/src/commands/x.rs lines 253-267): read one
chunk from parent stdin; at end-of-stream stop; otherwise offer the chunk
to every consumer slot in order, then stop if every consumer has been
removed, else read the next chunk.  Parent stdin is the list of chunks the
byte chunk reader will yield.  The result is the final consumer slots and
the number of chunks that were read. -/
def forwardLoop : List Bytes → List Consumer → List Consumer × Nat
  | [], cs => (cs, 0)
  | chunk :: rest, cs =>
      let offered := cs.map (consumerStep chunk)
      if offered.all fun c => c.1 = none then (offered, 1)
      else
        let r := forwardLoop rest offered
        (r.1, r.2 + 1)

/-- The forwarder thread closure (src/src/commands/x.rs lines 246-270): it
returns immediately when no consumer slot is live, otherwise it runs the
forward loop. -/
def forwardRun (chunks : List Bytes) (cs : List Consumer) : List Consumer × Nat :=
  if cs.all fun c => c.1 = none then (cs, 0)
  else forwardLoop chunks cs

/-- The chunks a single consumer slot is offered over a run, folded in
order. -/
def consumerRun (chunks : List Bytes) (c : Consumer) : Consumer :=
  chunks.foldl (fun c chunk => consumerStep chunk c) c

theorem consumerRun_dead (chunks : List Bytes) (received : List Bytes) :
    consumerRun chunks (none, received) = (none, received) := by
  induction chunks with
  | nil => rfl
  | cons chunk rest ih => simpa [consumerRun, consumerStep] using ih

theorem consumerRun_closed (chunks : List Bytes) (cap : Nat) (received : List Bytes) :
    consumerRun chunks (some cap, received) =
      ((if chunks.length ≤ cap then some (cap - chunks.length) else none),
        received ++ chunks.take cap) := by
  induction chunks generalizing cap received with
  | nil => simp [consumerRun]
  | cons chunk rest ih =>
    cases cap with
    | zero =>
      have hstep : consumerRun (chunk :: rest) (some 0, received) =
          consumerRun rest (none, received) := rfl
      simp [hstep, consumerRun_dead]
    | succ cap =>
      have hstep : consumerRun (chunk :: rest) (some (cap + 1), received) =
          consumerRun rest (some cap, received ++ [chunk]) := rfl
      rw [hstep, ih]
      simp only [List.length_cons, List.take_succ_cons, List.append_assoc,
        List.singleton_append, Nat.add_le_add_iff_right, Nat.succ_sub_succ]

theorem forwardLoop_reads_le (chunks : List Bytes) (cs : List Consumer) :
    (forwardLoop chunks cs).2 ≤ chunks.length := by
  induction chunks generalizing cs with
  | nil => simp [forwardLoop]
  | cons chunk rest ih =>
    rw [forwardLoop]
    split
    · simp
    · simpa using ih (cs.map (consumerStep chunk))

theorem forwardLoop_early_stop (chunks : List Bytes) (cs : List Consumer)
    (h : (forwardLoop chunks cs).2 < chunks.length) :
    (forwardLoop chunks cs).1.all (fun c => c.1 = none) = true := by
  induction chunks generalizing cs with
  | nil => simp [forwardLoop] at h
  | cons chunk rest ih =>
    rw [forwardLoop]
    rw [forwardLoop] at h
    split
    · rename_i hall
      simpa using hall
    · rename_i hall
      rw [if_neg hall] at h
      simp only [List.length_cons, Nat.add_lt_add_iff_right] at h
      simpa using ih (cs.map (consumerStep chunk)) h

theorem forwardLoop_pointwise (chunks : List Bytes) (cs : List Consumer) :
    (forwardLoop chunks cs).1 =
      cs.map (consumerRun (chunks.take (forwardLoop chunks cs).2)) := by
  induction chunks generalizing cs with
  | nil =>
    simp only [forwardLoop, List.take_nil]
    have : consumerRun [] = id := rfl
    simp [this]
  | cons chunk rest ih =>
    rw [forwardLoop]
    split
    · simp only [List.take_succ_cons, List.take_zero]
      have : consumerRun [chunk] = consumerStep chunk := rfl
      simp [this]
    · simp only [List.take_succ_cons]
      rw [ih (cs.map (consumerStep chunk)), List.map_map]
      apply List.map_congr_left
      intro c _
      rfl

/-- C4: over every forwarder run, with each child stdin modelled by the
number of chunks it accepts before reporting a broken pipe: (1) the loop
terminates exactly when parent stdin is exhausted or all consumers have
been removed — it never reads fewer chunks unless every slot is cleared;
(2) each chunk read is offered to every still-live consumer before the
next chunk is read, a consumer that reports a broken pipe is removed while
the thread continues writing to the remaining ones: consumer cap stays
live iff the read count n is at most cap, and it receives exactly the
first min cap n parent chunks, in parent order. -/
theorem forwarder_thread_props (chunks : List Bytes) (caps : List Nat)
    (fin : List Consumer) (n : Nat)
    (h : forwardRun chunks (caps.map fun cap => (some cap, [])) = (fin, n)) :
    n ≤ chunks.length ∧
      (n < chunks.length → fin.all (fun c => c.1 = none) = true) ∧
      fin = caps.map fun cap =>
        ((if n ≤ cap then some (cap - n) else none), chunks.take (min cap n)) := by
  unfold forwardRun at h
  split at h
  · rename_i hall
    obtain ⟨rfl, rfl⟩ : fin = caps.map (fun cap => ((some cap : Option Nat), ([] : List Bytes))) ∧ n = 0 := by
      have h1 := congrArg Prod.fst h
      have h2 := congrArg Prod.snd h
      exact ⟨h1.symm, h2.symm⟩
    refine ⟨Nat.zero_le _, ?_, ?_⟩
    · intro _
      exact hall
    · simp
  · obtain ⟨rfl, rfl⟩ :
        fin = (forwardLoop chunks (caps.map fun cap => (some cap, []))).1 ∧
          n = (forwardLoop chunks (caps.map fun cap => (some cap, []))).2 := by
      have h1 := congrArg Prod.fst h
      have h2 := congrArg Prod.snd h
      exact ⟨h1.symm, h2.symm⟩
    refine ⟨forwardLoop_reads_le _ _, forwardLoop_early_stop _ _, ?_⟩
    rw [forwardLoop_pointwise, List.map_map]
    apply List.map_congr_left
    intro cap _
    have hn := forwardLoop_reads_le chunks (caps.map fun cap => (some cap, []))
    simp only [Function.comp_apply]
    rw [consumerRun_closed]
    rw [List.length_take, List.take_take]
    rw [Nat.min_eq_left hn]
    simp

theorem forwarder_thread_props_witness :
    forwardRun [[10], [11], [12]] ([1, 5].map fun cap => (some cap, [])) =
        ([(none, [[10]]), (some 2, [[10], [11], [12]])], 3) ∧
      (3 ≤ ([[10], [11], [12]] : List Bytes).length ∧
        (3 < ([[10], [11], [12]] : List Bytes).length →
          ([((none : Option Nat), [[10]]), (some 2, [[10], [11], [12]])].all
            (fun c => c.1 = none)) = true) ∧
        [((none : Option Nat), [[10]]), (some 2, [[10], [11], [12]])] =
          [1, 5].map fun cap =>
            ((if 3 ≤ cap then some (cap - 3) else none),
              ([[10], [11], [12]] : List Bytes).take (min cap 3))) :=
  ⟨by decide, forwarder_thread_props [[10], [11], [12]] [1, 5] _ 3 (by decide)⟩

/-- How a command's stdio stream is configured before it is spawned:
Stdio::piped(), Stdio::null(), or Stdio::from(the piped stdout of the
already spawned child with the given index). -/
inductive StdioCfg where
  | piped
  | null
  | fromStdout (child : Nat)
  deriving Repr, DecidableEq

/-- The stdio wiring a spawned pipeline command receives.  build_command
(src/src/commands/x.rs lines 604-639) resolves a pattern command to an OS
command plus the Group of the matched built-in (Transformers for external
and unknown commands); only the group steers the wiring, so the embedding
identifies each command with its resolved group and records the chosen
configurations. -/
structure BuiltCmd where
  stdinCfg : StdioCfg
  stdoutCfg : StdioCfg
  deriving Repr, DecidableEq

/-- The stdin configuration chosen for the next command of a pipeline
(src/src/commands/x.rs lines 557-564): a Generators command gets a null
stdin; otherwise the command is connected to the previous child's piped
stdout when there is one, and the first command gets a piped stdin. -/
def nextStdinCfg (group : Group) (prev : Option Nat) : StdioCfg :=
  if group = Group.generators then StdioCfg.null
  else
    match prev with
    | some j => StdioCfg.fromStdout j
    | none => StdioCfg.piped

/-- The state CommandBuilder::build_pipeline threads through its command
loop and returns: the wiring of the spawned children in order, the kept
pipeline stdin handle (index of the child it belongs to, none when absent
or dropped) and the pending stdout (index of the child it belongs to). -/
structure BuildState where
  cmds : List BuiltCmd
  stdin : Option Nat
  stdout : Option Nat
  deriving Repr, DecidableEq

/-- The command loop of CommandBuilder::build_pipeline
(src/src/commands/x.rs lines 554-578).  idx is the index the next spawned
child receives.  Per command: choose the stdin configuration
(nextStdinCfg), flag no_stdin when the command is a Generator, pipe the
stdout, spawn; then clear the kept stdin handle when no_stdin is set, else
keep the first taken handle — take_stdin yields a handle only for a child
whose stdin was configured as piped. -/
def buildCmds (groups : List Group) (idx : Nat) (stdin : Option Nat)
    (prev : Option Nat) (no_stdin : Bool) : BuildState :=
  match groups with
  | [] => ⟨[], stdin, prev⟩
  | group :: rest =>
      let cfg := nextStdinCfg group prev
      let no_stdin' := no_stdin || group = Group.generators
      let stdin' :=
        if no_stdin' then none
        else if stdin = none then
          if cfg = StdioCfg.piped then some idx else none
        else stdin
      let r := buildCmds rest (idx + 1) stdin' (some idx) no_stdin'
      ⟨⟨cfg, StdioCfg.piped⟩ :: r.cmds, r.stdin, r.stdout⟩

/-- The result of CommandBuilder::build_pipeline: the wiring of the
children pushed to the children vector, whether the default internal cat
stage was substituted for an empty command list, and the pipeline stdin
and stdout handles. -/
structure PipelineBuild where
  cmds : List BuiltCmd
  catSubstituted : Bool
  stdin : Option Nat
  stdout : Option Nat
  deriving Repr, DecidableEq

/-- CommandBuilder::build_pipeline (src/src/commands/x.rs lines 545-602):
run the command loop; if no command produced a stdout (empty command list)
spawn the default internal cat command with piped stdin and stdout and take
both handles unconditionally. -/
def build_pipeline (groups : List Group) (no_stdin : Bool) : PipelineBuild :=
  match (buildCmds groups 0 none none no_stdin).stdout with
  | none =>
      ⟨(buildCmds groups 0 none none no_stdin).cmds, true,
        some groups.length, some groups.length⟩
  | some j =>
      ⟨(buildCmds groups 0 none none no_stdin).cmds, false,
        (buildCmds groups 0 none none no_stdin).stdin, some j⟩

/-- Reference wiring list: what the loop assigns, decoupled from the
stdin-handle threading. -/
def expectedCmds : List Group → Option Nat → Nat → List BuiltCmd
  | [], _, _ => []
  | g :: rest, prev, idx =>
      ⟨nextStdinCfg g prev, StdioCfg.piped⟩ :: expectedCmds rest (some idx) (idx + 1)

theorem buildCmds_cmds (groups : List Group) (idx : Nat) (stdin : Option Nat)
    (prev : Option Nat) (no_stdin : Bool) :
    (buildCmds groups idx stdin prev no_stdin).cmds = expectedCmds groups prev idx := by
  induction groups generalizing idx stdin prev no_stdin with
  | nil => rfl
  | cons g rest ih => simp [buildCmds, expectedCmds, ih]

/-- Reference stdin configuration of the i-th command of a pipeline whose
loop started with pending stdout prev and child index idx. -/
def expectedStdinCfg (groups : List Group) (prev : Option Nat) (idx i : Nat) : StdioCfg :=
  if groups.getD i Group.general = Group.generators then StdioCfg.null
  else if i = 0 then
    (match prev with
     | some j => StdioCfg.fromStdout j
     | none => StdioCfg.piped)
  else StdioCfg.fromStdout (idx + i - 1)

theorem expectedCmds_stdout (groups : List Group) (prev : Option Nat) (idx i : Nat)
    (hi : i < groups.length) :
    ((expectedCmds groups prev idx).getD i ⟨StdioCfg.piped, StdioCfg.piped⟩).stdoutCfg =
      StdioCfg.piped := by
  induction groups generalizing prev idx i with
  | nil => simp at hi
  | cons g rest ih =>
    cases i with
    | zero => rfl
    | succ i' =>
      simp only [expectedCmds, List.getD_cons_succ]
      exact ih (some idx) (idx + 1) i' (by simpa using hi)

theorem expectedCmds_stdin (groups : List Group) (prev : Option Nat) (idx i : Nat)
    (hi : i < groups.length) :
    ((expectedCmds groups prev idx).getD i ⟨StdioCfg.piped, StdioCfg.piped⟩).stdinCfg =
      expectedStdinCfg groups prev idx i := by
  induction groups generalizing prev idx i with
  | nil => simp at hi
  | cons g rest ih =>
    cases i with
    | zero =>
      simp only [expectedCmds, List.getD_cons_zero, expectedStdinCfg, List.getD_cons_zero,
        nextStdinCfg]
      split <;> simp
    | succ i' =>
      have hi' : i' < rest.length := by simpa using hi
      simp only [expectedCmds, List.getD_cons_succ]
      rw [ih (some idx) (idx + 1) i' hi']
      simp only [expectedStdinCfg, List.getD_cons_succ]
      split
      · rfl
      · cases i' with
        | zero => simp
        | succ i'' =>
          simp only [if_neg (Nat.succ_ne_zero i''), if_neg (Nat.succ_ne_zero (i'' + 1))]
          congr 1
          omega

theorem buildCmds_stdin_flagged (groups : List Group) (idx : Nat) (prev : Option Nat) :
    (buildCmds groups idx none prev true).stdin = none := by
  induction groups generalizing idx prev with
  | nil => rfl
  | cons g rest ih => simp [buildCmds, ih]

theorem buildCmds_stdin_none_prev_some (groups : List Group) (idx j : Nat)
    (no_stdin : Bool) :
    (buildCmds groups idx none (some j) no_stdin).stdin = none := by
  induction groups generalizing idx j no_stdin with
  | nil => rfl
  | cons g rest ih =>
    have hcfg : nextStdinCfg g (some j) ≠ StdioCfg.piped := by
      unfold nextStdinCfg
      split <;> simp
    simp [buildCmds, hcfg, ih]

theorem buildCmds_stdin_keep (groups : List Group) (idx h j : Nat) :
    (buildCmds groups idx (some h) (some j) false).stdin =
      if groups.any (fun g => g == Group.generators) then none else some h := by
  induction groups generalizing idx j with
  | nil => simp [buildCmds]
  | cons g rest ih =>
    by_cases hg : g = Group.generators
    · simp [buildCmds, hg, buildCmds_stdin_flagged]
    · simp [buildCmds, hg, ih]

theorem buildCmds_stdin_top (groups : List Group) (no_stdin : Bool) :
    (buildCmds groups 0 none none no_stdin).stdin =
      if groups.isEmpty then none
      else if no_stdin || groups.any (fun g => g == Group.generators) then none
      else some 0 := by
  cases groups with
  | nil => rfl
  | cons g rest =>
    by_cases hg : g = Group.generators
    · simp [buildCmds, hg, buildCmds_stdin_flagged]
    · cases no_stdin with
      | true => simp [buildCmds, hg, buildCmds_stdin_flagged]
      | false => simp [buildCmds, nextStdinCfg, hg, buildCmds_stdin_keep]

theorem buildCmds_stdout (groups : List Group) (idx : Nat) (stdin prev : Option Nat)
    (no_stdin : Bool) :
    (buildCmds groups idx stdin prev no_stdin).stdout =
      if groups.isEmpty then prev else some (idx + groups.length - 1) := by
  induction groups generalizing idx stdin prev no_stdin with
  | nil => rfl
  | cons g rest ih =>
    simp only [buildCmds, ih, List.isEmpty_cons, List.length_cons, Bool.false_eq_true,
      if_false]
    cases rest with
    | nil => simp
    | cons g' rest' =>
      simp only [List.isEmpty_cons, Bool.false_eq_true, if_false, List.length_cons]
      congr 1
      omega

/-- C5 counterexample: the claim fails on the code in two respects, both
at concrete inputs.  First, in the two-command pipeline whose second
command resolves to the Generators group, the second (subsequent) command's
stdin is nulled rather than connected to the previous child's stdout.
Second, for a single non-generator command with the no-stdin marker set,
the first command's stdin is still piped, not nulled — the marker only
makes the builder drop the pipeline's stdin handle. -/
theorem pipeline_wiring_counterexample :
    ((build_pipeline [Group.transformers, Group.generators] false).cmds.getD 1
        ⟨StdioCfg.piped, StdioCfg.piped⟩).stdinCfg = StdioCfg.null ∧
      StdioCfg.null ≠ StdioCfg.fromStdout 0 ∧
      ((build_pipeline [Group.transformers] true).cmds.getD 0
          ⟨StdioCfg.piped, StdioCfg.piped⟩).stdinCfg = StdioCfg.piped ∧
      StdioCfg.piped ≠ StdioCfg.null ∧
      (build_pipeline [Group.transformers] true).stdin = none := by
  refine ⟨rfl, by decide, rfl, by decide, rfl⟩

/-- C5 (amended): when a Pipeline-bodied expression's commands are built
and spawned, every command's stdout is piped; a command resolving to the
Generators group has its stdin nulled wherever it occurs; the first
command's stdin is otherwise piped and each subsequent non-generator
command's stdin is connected to the previous child's stdout.  The no-stdin
marker does not null the first command's stdin: it (like the presence of
any Generator) only makes the builder drop the pipeline's stdin handle. -/
theorem build_pipeline_wiring (groups : List Group) (no_stdin : Bool) (i : Nat)
    (hi : i < groups.length) :
    ((build_pipeline groups no_stdin).cmds.getD i
        ⟨StdioCfg.piped, StdioCfg.piped⟩).stdoutCfg = StdioCfg.piped ∧
      ((build_pipeline groups no_stdin).cmds.getD i
          ⟨StdioCfg.piped, StdioCfg.piped⟩).stdinCfg =
        (if groups.getD i Group.general = Group.generators then StdioCfg.null
         else if i = 0 then StdioCfg.piped
         else StdioCfg.fromStdout (i - 1)) ∧
      (build_pipeline groups no_stdin).stdin =
        (if no_stdin || groups.any (fun g => g == Group.generators) then none
         else some 0) := by
  have hne : groups ≠ [] := by
    intro he
    subst he
    simp at hi
  have hem : groups.isEmpty = false := by
    cases groups with
    | nil => exact absurd rfl hne
    | cons _ _ => rfl
  have hstdout : (buildCmds groups 0 none none no_stdin).stdout =
      some (0 + groups.length - 1) := by
    rw [buildCmds_stdout, hem]
    simp
  have hcmds : (build_pipeline groups no_stdin).cmds =
      expectedCmds groups none 0 := by
    simp only [build_pipeline, hstdout]
    exact buildCmds_cmds groups 0 none none no_stdin
  have hstdin : (build_pipeline groups no_stdin).stdin =
      (buildCmds groups 0 none none no_stdin).stdin := by
    simp only [build_pipeline, hstdout]
  refine ⟨?_, ?_, ?_⟩
  · rw [hcmds]
    exact expectedCmds_stdout groups none 0 i hi
  · rw [hcmds, expectedCmds_stdin groups none 0 i hi]
    unfold expectedStdinCfg
    split
    · rfl
    · cases i with
      | zero => simp
      | succ i' =>
        simp only [if_neg (Nat.succ_ne_zero i')]
        congr 1
        omega
  · rw [hstdin, buildCmds_stdin_top]
    simp [hne]

theorem build_pipeline_wiring_witness :
    (1 < ([Group.transformers, Group.generators, Group.mappers] : List Group).length) ∧
      ((build_pipeline [Group.transformers, Group.generators, Group.mappers] false).cmds.getD 1
          ⟨StdioCfg.piped, StdioCfg.piped⟩).stdoutCfg = StdioCfg.piped ∧
      ((build_pipeline [Group.transformers, Group.generators, Group.mappers] false).cmds.getD 1
          ⟨StdioCfg.piped, StdioCfg.piped⟩).stdinCfg =
        (if ([Group.transformers, Group.generators, Group.mappers] : List Group).getD 1
            Group.general = Group.generators then StdioCfg.null
         else if 1 = 0 then StdioCfg.piped
         else StdioCfg.fromStdout 0) ∧
      (build_pipeline [Group.transformers, Group.generators, Group.mappers] false).stdin =
        (if false ||
            ([Group.transformers, Group.generators, Group.mappers] : List Group).any
              (fun g => g == Group.generators) then none
         else some 0) :=
  ⟨by decide, build_pipeline_wiring [Group.transformers, Group.generators, Group.mappers]
    false 1 (by decide)⟩

/-- The kind of an IO error, as inspected by write_all: BrokenPipe or any
other kind (carried as an opaque numeric tag). -/
inductive IoErrorKind where
  | brokenPipe
  | other (tag : Nat)
  deriving Repr, DecidableEq

/-- An IO error with its kind. -/
structure IoError where
  kind : IoErrorKind
  deriving Repr, DecidableEq

/-- An anyhow error chain: the context messages wrapped around a root
error, outermost first. -/
structure Ann (α : Type) where
  chain : List String
  root : α
  deriving Repr, DecidableEq

/-- error.context(msg): wrap one more context layer around the chain. -/
def contextWrap {α : Type} (msg : String) (e : Ann α) : Ann α :=
  ⟨msg :: e.chain, e.root⟩

/-- Context::apply from src/src/spawn.rs (lines 30-36, identical in
src/src/error.rs lines 26-32): wrap the error with every context entry in
order — a later entry becomes an outer layer of the chain. -/
def applyContext {α : Type} (ctx : List String) (err : α) : Ann α :=
  ctx.foldl (fun e msg => contextWrap msg e) ⟨[], err⟩

/-- The annotation write_all adds on failure. -/
def writeFailMsg : String := "failed to write to child process stdin"

/-- Spawned ChildStdin write_all from src/src/spawn.rs (lines 58-68); the
same logic appears in src/src/process.rs (lines 37-48) and, with a
different message, in the Eval wrapper of src/src/commands/x.rs (lines
443-451).  The outcome of the underlying stdin write is passed in: Ok on
success or the IO error.  Success yields Ok(true); a BrokenPipe error
yields Ok(false); every other error is annotated with the handle's context
entries and the write message and surfaced. -/
def write_all (ctx : List String) (result : Except IoError Unit) :
    Except (Ann IoError) Bool :=
  match result with
  | .ok () => .ok true
  | .error err =>
      if err.kind = IoErrorKind.brokenPipe then .ok false
      else .error (contextWrap writeFailMsg (applyContext ctx err))

theorem applyContext_chain {α : Type} (ctx : List String) (err : α) :
    applyContext ctx err = ⟨ctx.reverse, err⟩ := by
  have haux : ∀ (l : List String) (acc : List String),
      l.foldl (fun (e : Ann α) m => contextWrap m e) ⟨acc, err⟩ =
        ⟨l.reverse ++ acc, err⟩ := by
    intro l
    induction l with
    | nil =>
      intro acc
      simp
    | cons msg rest ih =>
      intro acc
      calc (msg :: rest).foldl (fun (e : Ann α) m => contextWrap m e) ⟨acc, err⟩
          = rest.foldl (fun (e : Ann α) m => contextWrap m e) ⟨msg :: acc, err⟩ := rfl
        _ = ⟨rest.reverse ++ msg :: acc, err⟩ := ih (msg :: acc)
        _ = ⟨(msg :: rest).reverse ++ acc, err⟩ := by simp
  simpa [applyContext] using haux ctx []

/-- C7: write_all on a spawned child stdin returns Ok(true) when the
write succeeds, Ok(false) when the underlying write fails with a
broken-pipe error — that case is never surfaced as an error — and, for
every other IO failure, an error annotated with every context entry of the
handle plus the write message. -/
theorem write_all_spec (ctx : List String) (result : Except IoError Unit) :
    (result = .ok () → write_all ctx result = .ok true) ∧
      (∀ err, result = .error err → err.kind = IoErrorKind.brokenPipe →
        write_all ctx result = .ok false) ∧
      (∀ err, result = .error err → err.kind ≠ IoErrorKind.brokenPipe →
        write_all ctx result =
            .error ⟨writeFailMsg :: ctx.reverse, err⟩ ∧
          ∀ msg ∈ ctx, msg ∈ (writeFailMsg :: ctx.reverse)) := by
  refine ⟨?_, ?_, ?_⟩
  · intro h
    rw [h]
    rfl
  · intro err h hkind
    rw [h]
    simp [write_all, hkind]
  · intro err h hkind
    rw [h]
    constructor
    · simp [write_all, hkind, contextWrap, applyContext_chain]
    · intro msg hmsg
      simp [List.mem_reverse, hmsg]

theorem write_all_spec_witness :
    write_all ["command: tr"] (.ok ()) = .ok true ∧
      write_all ["command: tr"] (.error ⟨IoErrorKind.brokenPipe⟩) = .ok false ∧
      write_all ["command: tr"] (.error ⟨IoErrorKind.other 5⟩) =
        .error ⟨[writeFailMsg, "command: tr"], ⟨IoErrorKind.other 5⟩⟩ :=
  ⟨(write_all_spec ["command: tr"] (.ok ())).1 rfl,
    (write_all_spec ["command: tr"] (.error ⟨IoErrorKind.brokenPipe⟩)).2.1 _ rfl rfl,
    ((write_all_spec ["command: tr"] (.error ⟨IoErrorKind.other 5⟩)).2.2 _ rfl
      (by decide)).1⟩

/-- An OS exit status: the success flag and the exit code when one exists
(none when the child was terminated by a signal). -/
structure ExitStatus where
  success : Bool
  code : Option Int
  deriving Repr, DecidableEq

/-- The content of a child-exit error message, keeping the data and
dropping the colour codes. -/
inductive ExitErrorMsg where
  | exitedWithCode (code : Int)
  | terminatedBySignal
  deriving Repr, DecidableEq

/-- exit_error from src/src/spawn.rs (lines 128-134): the message carries
the exit code when one is present and otherwise states that the child
process was terminated by a signal. -/
def spawn_exit_error (status : ExitStatus) : ExitErrorMsg :=
  match status.code with
  | some code => .exitedWithCode code
  | none => .terminatedBySignal

/-- exit_error from src/src/process.rs (lines 107-112): the message always
reports an exit code, via status.code().unwrap_or_default() — a missing
code (signal termination) is reported as exit code 0. -/
def process_exit_error (status : ExitStatus) : ExitErrorMsg :=
  .exitedWithCode (status.code.getD 0)

/-- The failure message built by the Eval Child try_wait wrapper in
src/src/commands/x.rs (lines 470-481): like process_exit_error it reports
status.code().unwrap_or_default(). -/
def eval_try_wait_error (status : ExitStatus) : ExitErrorMsg :=
  .exitedWithCode (status.code.getD 0)

/-- The annotation wait_context adds (src/src/spawn.rs lines 113-117; the
typo is the source's). -/
def waitFailMsg : String := "child proces execution failed"

/-- Spawned Child wait from src/src/spawn.rs (lines 96-102): Ok when the
status is success, otherwise the context-annotated exit error. -/
def spawn_wait (ctx : List String) (status : ExitStatus) :
    Except (Ann ExitErrorMsg) Unit :=
  if status.success then .ok ()
  else .error (contextWrap waitFailMsg (applyContext ctx (spawn_exit_error status)))

/-- C9 counterexample: the claim fails on the code cited from
src/src/commands/x.rs and src/src/process.rs.  For a child that exited via
a signal (failure status with no exit code), Eval Child try_wait and
process.rs exit_error build the message "child process exited with code 0"
— a fabricated default code — and do not state that the child was
terminated by a signal. -/
theorem wait_exit_error_counterexample :
    eval_try_wait_error ⟨false, none⟩ = ExitErrorMsg.exitedWithCode 0 ∧
      process_exit_error ⟨false, none⟩ = ExitErrorMsg.exitedWithCode 0 ∧
      ExitErrorMsg.exitedWithCode 0 ≠ ExitErrorMsg.terminatedBySignal ∧
      spawn_exit_error ⟨false, none⟩ = ExitErrorMsg.terminatedBySignal := by
  refine ⟨rfl, rfl, by decide, rfl⟩

/-- C9 (amended): waiting on a spawned child through Spawned::wait of
src/src/spawn.rs returns, for a failure status, an annotated error that
includes the child's exit code, or states that the child was terminated by
a signal when the exit code is unavailable; but the Eval Child try_wait of
src/src/commands/x.rs and exit_error of src/src/process.rs instead report
the default exit code 0 when the code is unavailable. -/
theorem wait_exit_error_amended (ctx : List String) (status : ExitStatus)
    (hfail : status.success = false) :
    (∀ code, status.code = some code →
        spawn_wait ctx status =
          .error ⟨waitFailMsg :: ctx.reverse, ExitErrorMsg.exitedWithCode code⟩) ∧
      (status.code = none →
        spawn_wait ctx status =
          .error ⟨waitFailMsg :: ctx.reverse, ExitErrorMsg.terminatedBySignal⟩) ∧
      (status.code = none →
        eval_try_wait_error status = ExitErrorMsg.exitedWithCode 0 ∧
          process_exit_error status = ExitErrorMsg.exitedWithCode 0) := by
  refine ⟨?_, ?_, ?_⟩
  · intro code hcode
    simp [spawn_wait, hfail, spawn_exit_error, hcode, contextWrap, applyContext_chain]
  · intro hcode
    simp [spawn_wait, hfail, spawn_exit_error, hcode, contextWrap, applyContext_chain]
  · intro hcode
    simp [eval_try_wait_error, process_exit_error, hcode]

theorem wait_exit_error_amended_witness :
    spawn_wait ["command: sort"] ⟨false, none⟩ =
        .error ⟨[waitFailMsg, "command: sort"], ExitErrorMsg.terminatedBySignal⟩ ∧
      spawn_wait ["command: sort"] ⟨false, some 2⟩ =
        .error ⟨[waitFailMsg, "command: sort"], ExitErrorMsg.exitedWithCode 2⟩ :=
  ⟨(wait_exit_error_amended ["command: sort"] ⟨false, none⟩ rfl).2.1 rfl,
    (wait_exit_error_amended ["command: sort"] ⟨false, some 2⟩ rfl).1 2 rfl⟩

/-- One read_line outcome of a child stdout reader in the error-aware model
of the output loop: a record, end-of-stream, or an IO error. -/
inductive ReadEvent where
  | line (record : Bytes)
  | eos
  | fail
  deriving Repr, DecidableEq

/-- An output-loop producer with failing reads modelled: a Reader yields a
list of read events; events past the end of the list are end-of-stream. -/
inductive EvalItemE where
  | constant (value : Bytes)
  | reader (events : List ReadEvent)
  deriving Repr, DecidableEq

/-- What one pass of the inner for-loop of the output loop produces in the
error-aware model. -/
inductive StepResult where
  | fail
  | eos
  | next (record : Bytes) (rest : List EvalItemE)
  deriving Repr, DecidableEq

/-- The inner for-loop of the output loop (src/src/commands/x.rs lines
277-288) with failing reads: walking the items left to right, a read error
makes the question-mark operator return from eval_pattern at once (fail),
end-of-stream breaks the outer loop (eos), and otherwise the assembled
record and the advanced items are produced. -/
def loopBodyE : List EvalItemE → Bytes → StepResult
  | [], buf => .next buf []
  | .constant value :: rest, buf =>
      match loopBodyE rest (buf ++ value) with
      | .fail => .fail
      | .eos => .eos
      | .next record rest' => .next record (.constant value :: rest')
  | .reader [] :: _, _ => .eos
  | .reader (.eos :: _) :: _, _ => .eos
  | .reader (.fail :: _) :: _, _ => .fail
  | .reader (.line line :: events) :: rest, buf =>
      match loopBodyE rest (buf ++ line) with
      | .fail => .fail
      | .eos => .eos
      | .next record rest' => .next record (.reader events :: rest')

/-- The observable outcome of eval_pattern from the output loop on: the
records written, whether the function returned early with an error (the
question mark on a child read or on the output write), and whether control
reached the shutdown block — the best-effort try_wait pass, the 100 ms
grace period and the kill pass of src/src/commands/x.rs lines 293-314. -/
structure EvalRunResult where
  outputs : List Bytes
  errored : Bool
  shutdownRan : Bool
  deriving Repr, DecidableEq

/-- The output loop of eval_pattern (src/src/commands/x.rs lines 276-291)
with its exits made explicit, run for at most fuel iterations.  wfails
schedules the outcomes of writer.write_line: true at position i makes the
i-th write fail.  A failed read or write propagates out of eval_pattern
through the question-mark operator, skipping the shutdown block entirely;
only the end-of-stream break falls through to the shutdown block. -/
def evalLoopE : Nat → List EvalItemE → List Bool → EvalRunResult
  | 0, _, _ => ⟨[], false, false⟩
  | fuel + 1, items, wfails =>
    match loopBodyE items [] with
    | .fail => ⟨[], true, false⟩
    | .eos => ⟨[], false, true⟩
    | .next record rest =>
        if wfails.headD false then ⟨[], true, false⟩
        else
          let r := evalLoopE fuel rest wfails.tail
          ⟨record :: r.outputs, r.errored, r.shutdownRan⟩

/-- C8 counterexample: the claim fails on the code.  For a single
expression whose first read fails, the output loop errors and eval_pattern
returns that error immediately through the question-mark operator — the
shutdown block (try_wait, grace period, kill) at src/src/commands/x.rs
lines 293-314 is never reached, contrary to the claim that it still runs
before the error is returned.  A failing output write behaves the same
way. -/
theorem error_skips_shutdown_counterexample :
    evalLoopE 1 [EvalItemE.reader [ReadEvent.fail]] [] =
        ⟨[], true, false⟩ ∧
      evalLoopE 2 [EvalItemE.reader [ReadEvent.line [97], ReadEvent.eos]] [true] =
        ⟨[], true, false⟩ ∧
      evalLoopE 2 [EvalItemE.reader [ReadEvent.line [97], ReadEvent.eos]] [] =
        ⟨[[97]], false, true⟩ := by
  refine ⟨rfl, rfl, rfl⟩

/-- C8 (amended): when an error occurs on the main thread during the
general-path output loop (a failed child read or output write), the output
loop is aborted and eval_pattern returns the error at once, without running
the shutdown sequence; the shutdown sequence (best-effort try_wait, grace
period, kill) runs exactly when the loop exits normally through its
end-of-stream break. -/
theorem error_skips_shutdown_amended (fuel : Nat) (items : List EvalItemE)
    (wfails : List Bool) :
    ((evalLoopE fuel items wfails).errored = true →
        (evalLoopE fuel items wfails).shutdownRan = false) ∧
      ((evalLoopE fuel items wfails).shutdownRan = true →
        (evalLoopE fuel items wfails).errored = false) := by
  induction fuel generalizing items wfails with
  | zero => simp [evalLoopE]
  | succ fuel ih =>
    rw [evalLoopE]
    split
    · simp
    · simp
    · rename_i record rest heq
      split
      · simp
      · exact ih rest wfails.tail

theorem error_skips_shutdown_amended_witness :
    (evalLoopE 1 [EvalItemE.reader [ReadEvent.fail]] []).shutdownRan = false :=
  (error_skips_shutdown_amended 1 [EvalItemE.reader [ReadEvent.fail]] []).1 (by decide)

/-- A source character of the rew pattern language, one position wide.
The rew parser measures byte-exact ranges over the UTF-8 source; the model
measures positions over the character list, which coincides for one-byte
characters. -/
abbrev SChar := Nat

/-- The code of the expression start character. -/
def exprStartChar : SChar := 123

/-- The code of the expression end character. -/
def exprEndChar : SChar := 125

/-- The code of the pipe character. -/
def pipeChar : SChar := 124

/-- The token type consumed by the rew pattern parser
(src/src/bin/rew/pattern/parser.rs): a raw character run, an expression
start, an expression end or a pipe. -/
inductive Token where
  | raw (value : List SChar)
  | exprStart
  | exprEnd
  | pipe
  deriving Repr, DecidableEq

/-- A token with its source range. -/
abbrev Tok := Token × Nat × Nat

/-- Escape-sequence decoding of a single escaped character (spec section
4.2): n, r and t map to line feed, carriage return and tab; any other
character is taken literally. -/
def unescapeChar (c : SChar) : SChar :=
  if c = 110 then 10 else if c = 114 then 13 else if c = 116 then 9 else c

/-- Extend the token stream with one decoded raw character of the given
source width starting at pos: merge it into an immediately following raw
token, else start a new raw token. -/
def consRaw (c : SChar) (width pos : Nat) : List Tok → List Tok
  | (Token.raw v, s, e) :: toks =>
      if s = pos + width then (Token.raw (c :: v), pos, e) :: toks
      else (Token.raw [c], pos, pos + width) :: (Token.raw v, s, e) :: toks
  | toks => (Token.raw [c], pos, pos + width) :: toks

/-- Modelled from the spec: the lexer of the rew pattern language
(src/src/bin/rew/pattern/lexer.rs is not under src/).  Spec section 4.2:
an expression start, expression end or pipe character forms its own token;
the escape character makes the following character literal (with the n, r,
t decodings) and the pair occupies two source positions; every other
character joins the current raw run.  Each token carries its source
range. -/
def lexTokens (escape : SChar) : List SChar → Nat → List Tok
  | [], _ => []
  | c :: rest, pos =>
    if c = exprStartChar then
      (Token.exprStart, pos, pos + 1) :: lexTokens escape rest (pos + 1)
    else if c = exprEndChar then
      (Token.exprEnd, pos, pos + 1) :: lexTokens escape rest (pos + 1)
    else if c = pipeChar then
      (Token.pipe, pos, pos + 1) :: lexTokens escape rest (pos + 1)
    else if c = escape then
      match rest with
      | [] => (Token.raw [c], pos, pos + 1) :: []
      | d :: rest' => consRaw (unescapeChar d) 2 pos (lexTokens escape rest' (pos + 2))
    else consRaw c 1 pos (lexTokens escape rest (pos + 1))

/-- The ranges of a token stream. -/
def tokRanges (toks : List Tok) : List (Nat × Nat) :=
  toks.map fun t => (t.2.1, t.2.2)

/-- The ranges chain from s to e: the first starts at s, each range is
nonempty and starts where the previous one ends, and the last ends at e.
This is exactly the partition property: no overlap, no gap, full cover in
order. -/
def chainedFrom (s : Nat) : List (Nat × Nat) → Nat → Prop
  | [], e => s = e
  | (a, b) :: rs, e => a = s ∧ s < b ∧ chainedFrom b rs e

instance chainedFromDec : (s : Nat) → (rs : List (Nat × Nat)) → (e : Nat) →
    Decidable (chainedFrom s rs e)
  | s, [], e => inferInstanceAs (Decidable (s = e))
  | s, (a, b) :: rs', e =>
      haveI := chainedFromDec b rs' e
      inferInstanceAs (Decidable (a = s ∧ s < b ∧ chainedFrom b rs' e))

theorem chainedFrom_consRaw (c : SChar) (width pos : Nat) (toks : List Tok)
    (e : Nat) (hw : 0 < width)
    (h : chainedFrom (pos + width) (tokRanges toks) e) :
    chainedFrom pos (tokRanges (consRaw c width pos toks)) e := by
  match toks with
  | [] =>
    simp only [tokRanges, List.map_nil, chainedFrom] at h
    simp only [consRaw, tokRanges, List.map_cons, List.map_nil, chainedFrom]
    exact ⟨by simp, by omega, h⟩
  | (Token.raw v, s, e1) :: tail =>
    simp only [tokRanges, List.map_cons, chainedFrom] at h
    obtain ⟨hs, hlt, hrest⟩ := h
    simp only [consRaw]
    rw [if_pos hs]
    simp only [tokRanges, List.map_cons, chainedFrom]
    exact ⟨by simp, by omega, hrest⟩
  | (Token.exprStart, s, e1) :: tail =>
    simp only [tokRanges, List.map_cons, chainedFrom] at h
    simp only [consRaw, tokRanges, List.map_cons, chainedFrom]
    exact ⟨by simp, by omega, h⟩
  | (Token.exprEnd, s, e1) :: tail =>
    simp only [tokRanges, List.map_cons, chainedFrom] at h
    simp only [consRaw, tokRanges, List.map_cons, chainedFrom]
    exact ⟨by simp, by omega, h⟩
  | (Token.pipe, s, e1) :: tail =>
    simp only [tokRanges, List.map_cons, chainedFrom] at h
    simp only [consRaw, tokRanges, List.map_cons, chainedFrom]
    exact ⟨by simp, by omega, h⟩

theorem lexTokens_cons (escape c : SChar) (rest : List SChar) (pos : Nat) :
    lexTokens escape (c :: rest) pos =
      (if c = exprStartChar then
        (Token.exprStart, pos, pos + 1) :: lexTokens escape rest (pos + 1)
      else if c = exprEndChar then
        (Token.exprEnd, pos, pos + 1) :: lexTokens escape rest (pos + 1)
      else if c = pipeChar then
        (Token.pipe, pos, pos + 1) :: lexTokens escape rest (pos + 1)
      else if c = escape then
        match rest with
        | [] => (Token.raw [c], pos, pos + 1) :: []
        | d :: rest' => consRaw (unescapeChar d) 2 pos (lexTokens escape rest' (pos + 2))
      else consRaw c 1 pos (lexTokens escape rest (pos + 1))) := by
  rw [lexTokens.eq_def]

/-- The lexer's token ranges partition the scanned suffix. -/
theorem lexTokens_chained (escape : SChar) (input : List SChar) (pos : Nat) :
    chainedFrom pos (tokRanges (lexTokens escape input pos)) (pos + input.length) := by
  have H : ∀ (n : Nat) (input : List SChar), input.length ≤ n → ∀ (pos : Nat),
      chainedFrom pos (tokRanges (lexTokens escape input pos)) (pos + input.length) := by
    intro n
    induction n with
    | zero =>
      intro input hlen pos
      match input with
      | [] => simp [lexTokens, tokRanges, chainedFrom]
    | succ n ihn =>
      intro input hlen pos
      match input with
      | [] => simp [lexTokens, tokRanges, chainedFrom]
      | c :: rest =>
        have hrest : rest.length ≤ n := by
          simp only [List.length_cons] at hlen
          omega
        rw [lexTokens_cons]
        by_cases h1 : c = exprStartChar
        · rw [if_pos h1]
          simp only [tokRanges, List.map_cons, chainedFrom]
          refine ⟨by simp, by omega, ?_⟩
          have := ihn rest hrest (pos + 1)
          simp only [tokRanges] at this
          simp only [tokRanges, List.length_cons]
          have harith : pos + 1 + rest.length = pos + (rest.length + 1) := by omega
          rw [harith] at this
          exact this
        · rw [if_neg h1]
          by_cases h2 : c = exprEndChar
          · rw [if_pos h2]
            simp only [tokRanges, List.map_cons, chainedFrom]
            refine ⟨by simp, by omega, ?_⟩
            have := ihn rest hrest (pos + 1)
            simp only [tokRanges] at this
            simp only [tokRanges, List.length_cons]
            have harith : pos + 1 + rest.length = pos + (rest.length + 1) := by omega
            rw [harith] at this
            exact this
          · rw [if_neg h2]
            by_cases h3 : c = pipeChar
            · rw [if_pos h3]
              simp only [tokRanges, List.map_cons, chainedFrom]
              refine ⟨by simp, by omega, ?_⟩
              have := ihn rest hrest (pos + 1)
              simp only [tokRanges] at this
              simp only [tokRanges, List.length_cons]
              have harith : pos + 1 + rest.length = pos + (rest.length + 1) := by omega
              rw [harith] at this
              exact this
            · rw [if_neg h3]
              by_cases h4 : c = escape
              · rw [if_pos h4]
                match rest, hrest with
                | [], _ =>
                  simp only [tokRanges, List.map_cons, List.map_nil, chainedFrom,
                    List.length_cons, List.length_nil]
                  exact ⟨by simp, by omega, by simp⟩
                | d :: rest', hrest =>
                  apply chainedFrom_consRaw _ _ _ _ _ (by omega)
                  have hrest' : rest'.length ≤ n := by
                    simp only [List.length_cons] at hrest
                    omega
                  have := ihn rest' hrest' (pos + 2)
                  have harith : pos + 2 + rest'.length =
                      pos + (rest'.length + 1 + 1) := by omega
                  rw [harith] at this
                  simpa [List.length_cons] using this
              · rw [if_neg h4]
                apply chainedFrom_consRaw _ _ _ _ _ (by omega)
                have := ihn rest hrest (pos + 1)
                have harith : pos + 1 + rest.length = pos + (rest.length + 1) := by omega
                rw [harith] at this
                simpa [List.length_cons] using this
  exact H input.length input (Nat.le_refl _) pos

/-- A parsed filter, with the range of the raw token it came from.  The
filter itself is modelled from the spec as the character run it was parsed
from: Filter::parse (src/src/bin/rew/pattern/filter.rs) is not under src/,
and parse_filter only forwards its failures and rejects leftovers, so the
ranges of an accepted pattern's items do not depend on it. -/
abbrev PFilter := List SChar × Nat × Nat

/-- Item from src/src/bin/rew/pattern/parser.rs (lines 10-14): a constant
or an expression holding its parsed filters. -/
inductive PItem where
  | constant (value : List SChar)
  | expression (filters : List PFilter)
  deriving Repr, DecidableEq

/-- A parsed item with its source range. -/
abbrev PItemR := PItem × Nat × Nat

/-- The parse error kinds raised in Parser::parse_items
(src/src/bin/rew/pattern/parser.rs); the filter-internal kinds are never
raised by the abstract filter model. -/
inductive PErrorKind where
  | unmatchedExprStart
  | unmatchedExprEnd
  | pipeOutsideExpr
  | exprStartInsideExpr
  | expectedFilter
  | expectedFilterOrExprEnd
  | expectedPipeOrExprEnd
  deriving Repr, DecidableEq

/-- A structured parse error: kind and source range. -/
abbrev PError := PErrorKind × Nat × Nat

/-- Parser::parse_filters (src/src/bin/rew/pattern/parser.rs lines
105-155) as a function of the remaining tokens and the accumulated
filters: a raw token parses as one filter; a pipe with no filter yet is
ExpectedFilterOrExprEnd at the pipe's range; a pipe must otherwise be
followed by a raw token — else ExpectedFilter at the offending token's
range, or at the empty range after the pipe when the tokens are exhausted;
a nested expression start is ExprStartInsideExpr; an expression end stops
the loop, returning its range and the tokens after it; exhausted tokens
stop the loop without an expression end. -/
def parseFiltersLoop (filters : List PFilter) :
    List Tok → Except PError (List PFilter × Option ((Nat × Nat) × List Tok))
  | [] => .ok (filters, none)
  | (Token.raw v, s, e) :: rest => parseFiltersLoop (filters ++ [(v, s, e)]) rest
  | (Token.pipe, s, e) :: rest =>
      if filters.isEmpty then .error (.expectedFilterOrExprEnd, s, e)
      else
        match rest with
        | [] => .error (.expectedFilter, e, e)
        | (Token.raw v, s', e') :: rest' =>
            parseFiltersLoop (filters ++ [(v, s', e')]) rest'
        | (_, s', e') :: _ => .error (.expectedFilter, s', e')
  | (Token.exprStart, s, e) :: _ => .error (.exprStartInsideExpr, s, e)
  | (Token.exprEnd, s, e) :: rest => .ok (filters, some ((s, e), rest))

/-- Parser::parse_item (src/src/bin/rew/pattern/parser.rs lines 58-92): no
token means no more items; a raw token is a constant with the token's
range; an expression start runs parse_filters and requires the matching
expression end — the item's range runs from the start token's start to the
end token's end, and UnmatchedExprStart at the start token's range is
raised when the tokens ran out instead; a stray expression end or pipe is
its own error. -/
def parseItem : List Tok → Except PError (Option (PItemR × List Tok))
  | [] => .ok none
  | (Token.raw v, s, e) :: rest => .ok (some ((PItem.constant v, s, e), rest))
  | (Token.exprStart, s, e) :: rest =>
      match parseFiltersLoop [] rest with
      | .error err => .error err
      | .ok (filters, some ((_, e'), rest')) =>
          .ok (some ((PItem.expression filters, s, e'), rest'))
      | .ok (_, none) => .error (.unmatchedExprStart, s, e)
  | (Token.exprEnd, s, e) :: _ => .error (.unmatchedExprEnd, s, e)
  | (Token.pipe, s, e) :: _ => .error (.pipeOutsideExpr, s, e)

/-- The parse_items loop (src/src/bin/rew/pattern/parser.rs lines 48-56)
with a fuel bound on the number of items. -/
def parseItemsFuel : Nat → List Tok → Except PError (List PItemR)
  | 0, _ => .ok []
  | fuel + 1, toks =>
    match parseItem toks with
    | .error err => .error err
    | .ok none => .ok []
    | .ok (some (item, rest)) =>
        match parseItemsFuel fuel rest with
        | .error err => .error err
        | .ok items => .ok (item :: items)

/-- Parser::parse_items: repeat parse_item until it yields no item,
collecting the items.  Fuel tokens.length + 1 always suffices because
every parsed item consumes at least one token. -/
def parse_items (toks : List Tok) : Except PError (List PItemR) :=
  parseItemsFuel (toks.length + 1) toks

/-- Parse a pattern: lex the source, then parse the items. -/
def parsePattern (escape : SChar) (input : List SChar) :
    Except PError (List PItemR) :=
  parse_items (lexTokens escape input 0)

theorem parseFiltersLoop_nil (fs : List PFilter) :
    parseFiltersLoop fs [] = .ok (fs, none) := rfl

theorem parseFiltersLoop_raw (fs : List PFilter) (v : List SChar) (s e : Nat)
    (rest : List Tok) :
    parseFiltersLoop fs ((Token.raw v, s, e) :: rest) =
      parseFiltersLoop (fs ++ [(v, s, e)]) rest := rfl

theorem parseFiltersLoop_pipe_nil (fs : List PFilter) (s e : Nat) :
    parseFiltersLoop fs [(Token.pipe, s, e)] =
      (if fs.isEmpty then .error (.expectedFilterOrExprEnd, s, e)
       else .error (.expectedFilter, e, e)) := rfl

theorem parseFiltersLoop_pipe_raw (fs : List PFilter) (s e : Nat)
    (v : List SChar) (s' e' : Nat) (rest' : List Tok) :
    parseFiltersLoop fs ((Token.pipe, s, e) :: (Token.raw v, s', e') :: rest') =
      (if fs.isEmpty then .error (.expectedFilterOrExprEnd, s, e)
       else parseFiltersLoop (fs ++ [(v, s', e')]) rest') := rfl

theorem parseFiltersLoop_pipe_start (fs : List PFilter) (s e s' e' : Nat)
    (rest' : List Tok) :
    parseFiltersLoop fs ((Token.pipe, s, e) :: (Token.exprStart, s', e') :: rest') =
      (if fs.isEmpty then .error (.expectedFilterOrExprEnd, s, e)
       else .error (.expectedFilter, s', e')) := rfl

theorem parseFiltersLoop_pipe_close (fs : List PFilter) (s e s' e' : Nat)
    (rest' : List Tok) :
    parseFiltersLoop fs ((Token.pipe, s, e) :: (Token.exprEnd, s', e') :: rest') =
      (if fs.isEmpty then .error (.expectedFilterOrExprEnd, s, e)
       else .error (.expectedFilter, s', e')) := rfl

theorem parseFiltersLoop_pipe_pipe (fs : List PFilter) (s e s' e' : Nat)
    (rest' : List Tok) :
    parseFiltersLoop fs ((Token.pipe, s, e) :: (Token.pipe, s', e') :: rest') =
      (if fs.isEmpty then .error (.expectedFilterOrExprEnd, s, e)
       else .error (.expectedFilter, s', e')) := rfl

theorem parseFiltersLoop_start (fs : List PFilter) (s e : Nat) (rest : List Tok) :
    parseFiltersLoop fs ((Token.exprStart, s, e) :: rest) =
      .error (.exprStartInsideExpr, s, e) := rfl

theorem parseFiltersLoop_close (fs : List PFilter) (s e : Nat) (rest : List Tok) :
    parseFiltersLoop fs ((Token.exprEnd, s, e) :: rest) =
      .ok (fs, some ((s, e), rest)) := rfl

theorem parseFiltersLoop_chained (toks : List Tok) (fs fs' : List PFilter)
    (b e sr er : Nat) (rest' : List Tok)
    (hc : chainedFrom b (tokRanges toks) e)
    (hp : parseFiltersLoop fs toks = .ok (fs', some ((sr, er), rest'))) :
    b ≤ sr ∧ sr < er ∧ chainedFrom er (tokRanges rest') e ∧
      rest'.length < toks.length := by
  have H : ∀ (n : Nat) (toks : List Tok), toks.length ≤ n →
      ∀ (fs fs' : List PFilter) (b sr er : Nat) (rest' : List Tok),
      chainedFrom b (tokRanges toks) e →
      parseFiltersLoop fs toks = .ok (fs', some ((sr, er), rest')) →
      b ≤ sr ∧ sr < er ∧ chainedFrom er (tokRanges rest') e ∧
        rest'.length < toks.length := by
    intro n
    induction n with
    | zero =>
      intro toks hlen fs fs' b sr er rest' hc hp
      match toks with
      | [] => simp [parseFiltersLoop] at hp
    | succ n ihn =>
      intro toks hlen fs fs' b sr er rest' hc hp
      match toks with
      | [] => simp [parseFiltersLoop] at hp
      | (Token.raw v, s1, e1) :: tail =>
        simp only [tokRanges, List.map_cons, chainedFrom] at hc
        obtain ⟨hs1, hbe1, hrest⟩ := hc
        rw [parseFiltersLoop_raw] at hp
        have hlen' : tail.length ≤ n := by
          simp only [List.length_cons] at hlen
          omega
        obtain ⟨h1, h2, h3, h4⟩ :=
          ihn tail hlen' _ fs' e1 sr er rest' hrest hp
        refine ⟨by omega, h2, h3, by simp only [List.length_cons]; omega⟩
      | (Token.pipe, s1, e1) :: tail =>
        simp only [tokRanges, List.map_cons, chainedFrom] at hc
        obtain ⟨hs1, hbe1, hrest⟩ := hc
        match tail, hrest, hp with
        | [], _, hp =>
          rw [parseFiltersLoop_pipe_nil] at hp
          split at hp <;> simp at hp
        | (Token.raw v, s2, e2) :: tail2, hrest, hp =>
          rw [parseFiltersLoop_pipe_raw] at hp
          by_cases hemp : fs.isEmpty
          · rw [if_pos hemp] at hp
            simp at hp
          · rw [if_neg hemp] at hp
            simp only [tokRanges, List.map_cons, chainedFrom] at hrest
            obtain ⟨hs2, he1e2, hrest2⟩ := hrest
            have hlen' : tail2.length ≤ n := by
              simp only [List.length_cons] at hlen
              omega
            obtain ⟨h1, h2, h3, h4⟩ :=
              ihn tail2 hlen' _ fs' e2 sr er rest' hrest2 hp
            refine ⟨by omega, h2, h3, by simp only [List.length_cons]; omega⟩
        | (Token.exprStart, s2, e2) :: tail2, _, hp =>
          rw [parseFiltersLoop_pipe_start] at hp
          split at hp <;> simp at hp
        | (Token.exprEnd, s2, e2) :: tail2, _, hp =>
          rw [parseFiltersLoop_pipe_close] at hp
          split at hp <;> simp at hp
        | (Token.pipe, s2, e2) :: tail2, _, hp =>
          rw [parseFiltersLoop_pipe_pipe] at hp
          split at hp <;> simp at hp
      | (Token.exprStart, s1, e1) :: tail =>
        rw [parseFiltersLoop_start] at hp
        simp at hp
      | (Token.exprEnd, s1, e1) :: tail =>
        simp only [tokRanges, List.map_cons, chainedFrom] at hc
        obtain ⟨hs1, hbe1, hrest⟩ := hc
        rw [parseFiltersLoop_close] at hp
        simp only [Except.ok.injEq, Prod.mk.injEq, Option.some.injEq] at hp
        obtain ⟨hfs, ⟨hsr, her⟩, hrest'⟩ := hp
        subst hsr
        subst her
        subst hrest'
        exact ⟨by omega, by omega, hrest, by simp⟩
  exact H toks.length toks (Nat.le_refl _) fs fs' b sr er rest' hc hp

theorem parseItem_nil : parseItem [] = .ok none := rfl

theorem parseItem_raw (v : List SChar) (s e : Nat) (rest : List Tok) :
    parseItem ((Token.raw v, s, e) :: rest) =
      .ok (some ((PItem.constant v, s, e), rest)) := rfl

theorem parseItem_start (s e : Nat) (rest : List Tok) :
    parseItem ((Token.exprStart, s, e) :: rest) =
      (match parseFiltersLoop [] rest with
      | .error err => .error err
      | .ok (filters, some ((_, e'), rest')) =>
          .ok (some ((PItem.expression filters, s, e'), rest'))
      | .ok (_, none) => .error (.unmatchedExprStart, s, e)) := rfl

theorem parseItem_close (s e : Nat) (rest : List Tok) :
    parseItem ((Token.exprEnd, s, e) :: rest) =
      .error (.unmatchedExprEnd, s, e) := rfl

theorem parseItem_pipe (s e : Nat) (rest : List Tok) :
    parseItem ((Token.pipe, s, e) :: rest) =
      .error (.pipeOutsideExpr, s, e) := rfl

theorem parseItem_none (toks : List Tok) (hp : parseItem toks = .ok none) :
    toks = [] := by
  match toks with
  | [] => rfl
  | (Token.raw v, s, e) :: rest =>
    rw [parseItem_raw] at hp
    simp at hp
  | (Token.exprStart, s, e) :: rest =>
    rw [parseItem_start] at hp
    match hfl : parseFiltersLoop [] rest with
    | .error err =>
      rw [hfl] at hp
      simp at hp
    | .ok (filters, none) =>
      rw [hfl] at hp
      simp at hp
    | .ok (filters, some ((sr, er), rest')) =>
      rw [hfl] at hp
      simp at hp
  | (Token.exprEnd, s, e) :: rest =>
    rw [parseItem_close] at hp
    simp at hp
  | (Token.pipe, s, e) :: rest =>
    rw [parseItem_pipe] at hp
    simp at hp

theorem parseItem_chained (toks : List Tok) (s e : Nat) (item : PItem) (a b : Nat)
    (rest : List Tok) (hc : chainedFrom s (tokRanges toks) e)
    (hp : parseItem toks = .ok (some ((item, a, b), rest))) :
    a = s ∧ s < b ∧ chainedFrom b (tokRanges rest) e ∧
      rest.length < toks.length := by
  match toks with
  | [] =>
    rw [parseItem_nil] at hp
    simp at hp
  | (Token.raw v, s1, e1) :: tail =>
    rw [parseItem_raw] at hp
    simp only [Except.ok.injEq, Option.some.injEq, Prod.mk.injEq] at hp
    obtain ⟨⟨hitem, ha, hb⟩, hrest⟩ := hp
    simp only [tokRanges, List.map_cons, chainedFrom] at hc
    obtain ⟨hs1, hlt, hrestc⟩ := hc
    refine ⟨by omega, by omega, ?_, ?_⟩
    · rw [← hrest, ← hb]
      exact hrestc
    · rw [← hrest]
      simp
  | (Token.exprStart, s1, e1) :: tail =>
    rw [parseItem_start] at hp
    match hfl : parseFiltersLoop [] tail with
    | .error err =>
      rw [hfl] at hp
      simp at hp
    | .ok (filters, none) =>
      rw [hfl] at hp
      simp at hp
    | .ok (filters, some ((sr, er), rest')) =>
      rw [hfl] at hp
      simp only [Except.ok.injEq, Option.some.injEq, Prod.mk.injEq] at hp
      obtain ⟨⟨hitem, ha, hb⟩, hrest⟩ := hp
      simp only [tokRanges, List.map_cons, chainedFrom] at hc
      obtain ⟨hs1, hlt, hrestc⟩ := hc
      obtain ⟨h1, h2, h3, h4⟩ :=
        parseFiltersLoop_chained tail [] filters e1 e sr er rest' hrestc hfl
      refine ⟨by omega, by omega, ?_, ?_⟩
      · rw [← hrest, ← hb]
        exact h3
      · rw [← hrest]
        simp only [List.length_cons]
        omega
  | (Token.exprEnd, s1, e1) :: tail =>
    rw [parseItem_close] at hp
    simp at hp
  | (Token.pipe, s1, e1) :: tail =>
    rw [parseItem_pipe] at hp
    simp at hp

theorem parseItemsFuel_chained (fuel : Nat) :
    ∀ (toks : List Tok) (s e : Nat) (items : List PItemR),
    toks.length < fuel →
    chainedFrom s (tokRanges toks) e →
    parseItemsFuel fuel toks = .ok items →
    chainedFrom s (items.map fun it => (it.2.1, it.2.2)) e := by
  induction fuel with
  | zero =>
    intro toks s e items hlen
    exact absurd hlen (Nat.not_lt_zero _)
  | succ fuel ih =>
    intro toks s e items hlen hc hp
    rw [parseItemsFuel] at hp
    match hpi : parseItem toks with
    | .error err =>
      rw [hpi] at hp
      simp at hp
    | .ok none =>
      rw [hpi] at hp
      simp only [Except.ok.injEq] at hp
      subst hp
      have hnil := parseItem_none toks hpi
      subst hnil
      simp only [tokRanges, List.map_nil, chainedFrom] at hc
      simpa [chainedFrom] using hc
    | .ok (some (item, rest)) =>
      rw [hpi] at hp
      have hp2 : (match parseItemsFuel fuel rest with
          | Except.error err => Except.error err
          | Except.ok items2 => Except.ok (item :: items2)) = Except.ok items := hp
      match hpr : parseItemsFuel fuel rest with
      | .error err =>
        rw [hpr] at hp2
        simp at hp2
      | .ok items' =>
        rw [hpr] at hp2
        simp only [Except.ok.injEq] at hp2
        subst hp2
        obtain ⟨item', a, b⟩ := item
        obtain ⟨h1, h2, h3, h4⟩ := parseItem_chained toks s e item' a b rest hc hpi
        simp only [List.map_cons, chainedFrom]
        exact ⟨h1, h2, ih rest b e items' (by omega) h3 hpr⟩

/-- C6: for every pattern accepted by the parser, the byte ranges of the
returned Items do not overlap and their concatenation in order covers
every byte of the source pattern exactly once: the item ranges chain from
position 0 to the length of the source. -/
theorem parse_items_ranges_chain (escape : SChar) (input : List SChar)
    (items : List PItemR)
    (h : parsePattern escape input = Except.ok items) :
    chainedFrom 0 (items.map fun it => (it.2.1, it.2.2)) input.length := by
  unfold parsePattern parse_items at h
  have hlex := lexTokens_chained escape input 0
  rw [Nat.zero_add] at hlex
  exact parseItemsFuel_chained _ _ 0 input.length items (Nat.lt_succ_self _) hlex h

theorem parse_items_ranges_chain_witness :
    parsePattern 92 [97, 123, 102, 125, 98] = Except.ok
        [(PItem.constant [97], 0, 1),
          (PItem.expression [([102], 2, 3)], 1, 4),
          (PItem.constant [98], 4, 5)] ∧
      chainedFrom 0
        ([((PItem.constant [97] : PItem), 0, 1),
            (PItem.expression [([102], 2, 3)], 1, 4),
            (PItem.constant [98], 4, 5)].map fun it => (it.2.1, it.2.2))
        ([97, 123, 102, 125, 98] : List SChar).length :=
  ⟨by rfl, parse_items_ranges_chain 92 [97, 123, 102, 125, 98] _ (by rfl)⟩

end Mmvv
